import Mathlib

/-!
# Verification of the omelet Markdown link/asset rewriting engine

Shallow embedding of `src/omelet/markdown_processor.py` (class
`MarkdownProcessor`) over `List Char`, together with proofs of the
specification's claims about it.

Python strings are modelled as `List Char`.  The Python standard-library
operations used by the source (`str.startswith`, `str.endswith`,
`str.lower`, `str.strip`, `str.replace`, `re.finditer`/`re.sub` for the
three concrete regular expressions appearing in the source, and
`hashlib.md5`) are given executable Lean models below, faithful to their
documented semantics.  Filesystem queries (`Path.resolve` /
`Path.exists` / `Path.is_file`) are abstracted into an explicit
predicate parameter `fs`.
-/

namespace Omelet

/-- Whitespace as recognized by Python's `str.strip()` / regex `\s`:
the ASCII whitespace characters together with the Unicode whitespace
code points. -/
def pyIsSpace (c : Char) : Bool :=
  let n := c.toNat
  (9 ≤ n && n ≤ 13) || n = 32 || (28 ≤ n && n ≤ 31) ||
  n = 133 || n = 160 || n = 5760 || (8192 ≤ n && n ≤ 8202) ||
  n = 8232 || n = 8233 || n = 8239 || n = 8287 || n = 12288

/-- Python `str.strip()`: drop leading and trailing whitespace. -/
def pyStrip (s : List Char) : List Char :=
  ((s.dropWhile pyIsSpace).reverse.dropWhile pyIsSpace).reverse

/-- Python `str.lower()` (ASCII case folding, which covers all
characters the source compares case-insensitively). -/
def pyLower (s : List Char) : List Char :=
  s.map Char.toLower

/-- Python `str.startswith(p)`. -/
def startsWithB : List Char → List Char → Bool
  | _, [] => true
  | [], _ :: _ => false
  | c :: s, p :: ps => c = p && startsWithB s ps

/-- Python `str.endswith(p)`. -/
def endsWithB (s p : List Char) : Bool :=
  startsWithB s.reverse p.reverse

/-- Split a string at the first occurrence of the character `c`:
`splitAtCharB c s = some (a, b)` with `s = a ++ c :: b` and `c ∉ a`,
`none` when `c` does not occur. -/
def splitAtCharB (c : Char) : List Char → Option (List Char × List Char)
  | [] => none
  | x :: t =>
    if x = c then some ([], t)
    else (splitAtCharB c t).map (fun p => (x :: p.1, p.2))

/-- `pat` occurs as a contiguous substring of `s` (Python `pat in s`). -/
def isSubstrB (pat : List Char) : List Char → Bool
  | [] => pat.isEmpty
  | c :: t => startsWithB (c :: t) pat || isSubstrB pat t

/-- Propositional form of substring occurrence. -/
def IsSubstr (pat s : List Char) : Prop :=
  ∃ x y, s = x ++ pat ++ y

/-- Split a string at the first occurrence of the substring `pat`
(assumed nonempty): `some (a, b)` with `s = a ++ pat ++ b` and no
occurrence of `pat` beginning inside `a`. -/
def splitFirstSubstrB (pat : List Char) : List Char → Option (List Char × List Char)
  | [] => if pat.isEmpty then some ([], []) else none
  | c :: t =>
    if startsWithB (c :: t) pat then some ([], (c :: t).drop pat.length)
    else (splitFirstSubstrB pat t).map (fun p => (c :: p.1, p.2))

/-- Split a string at the last occurrence of the character `c`:
`some (a, b)` with `s = a ++ c :: b` and `c ∉ b`. -/
def splitLastCharB (c : Char) (s : List Char) : Option (List Char × List Char) :=
  (splitAtCharB c s.reverse).map (fun p => (p.2.reverse, p.1.reverse))

/-- Recursion core of `pyReplace`.  The scan consumes at least one
character per step, so any `fuel > s.length` computes the untruncated
result; structural recursion on the fuel keeps the function
kernel-reducible. -/
def pyReplaceGo (old new : List Char) : Nat → List Char → List Char
  | 0, s => s
  | _ + 1, [] => if old = [] then new else []
  | fuel + 1, c :: t =>
    if old = [] then new ++ c :: pyReplaceGo old new fuel t
    else if startsWithB (c :: t) old then
      new ++ pyReplaceGo old new fuel ((c :: t).drop old.length)
    else c :: pyReplaceGo old new fuel t

/-- Python `str.replace(old, new)`: all non-overlapping occurrences,
scanned left to right (for the empty `old`, `new` is inserted at every
position, as in Python). -/
def pyReplace (s old new : List Char) : List Char :=
  pyReplaceGo old new (s.length + 1) s

/-! ## The image-link pattern

The scanner's regular expression (`markdown_processor.py`, line 14) is
`!\[([^\]]*)\]\(([^)]+)\)`.  Both character classes exclude their
closing delimiter, so matching is deterministic: at a given start
position the pattern matches iff the text begins with `![`, followed by
the (possibly empty) run of non-`]` characters up to the first `]`,
then `(`, then a nonempty run of non-`)` characters up to the first
`)`. -/

/-- Peel a literal prefix: `some rest` iff `s = p ++ rest`. -/
def stripPrefixB : List Char → List Char → Option (List Char)
  | [], s => some s
  | _ :: _, [] => none
  | p :: ps, c :: t => if c = p then stripPrefixB ps t else none

theorem stripPrefixB_some {p s r : List Char}
    (h : stripPrefixB p s = some r) : s = p ++ r := by
  induction p generalizing s with
  | nil => simpa [stripPrefixB] using h
  | cons x ps ih =>
    cases s with
    | nil => simp [stripPrefixB] at h
    | cons c t =>
      by_cases hc : c = x
      · subst hc
        simp only [stripPrefixB, if_pos rfl] at h
        simp [ih h]
      · simp [stripPrefixB, hc] at h

theorem splitAtCharB_some {c : Char} {s a b : List Char}
    (h : splitAtCharB c s = some (a, b)) : s = a ++ c :: b ∧ c ∉ a := by
  induction s generalizing a b with
  | nil => simp [splitAtCharB] at h
  | cons x t ih =>
    by_cases hx : x = c
    · simp only [splitAtCharB, if_pos hx] at h
      simp only [Option.some.injEq, Prod.mk.injEq] at h
      obtain ⟨ha, hb⟩ := h
      subst hx; subst ha; subst hb
      simp
    · simp only [splitAtCharB, if_neg hx] at h
      match hsp : splitAtCharB c t with
      | none => rw [hsp] at h; simp at h
      | some (a', b') =>
        rw [hsp] at h
        simp only [Option.map_some', Option.some.injEq, Prod.mk.injEq] at h
        obtain ⟨ha, hb⟩ := h
        obtain ⟨ht, hc⟩ := ih hsp
        subst ha; subst hb
        refine ⟨by simp [ht], ?_⟩
        intro hmem
        rcases List.mem_cons.mp hmem with h1 | h2
        · exact hx h1.symm
        · exact hc h2

/-- Attempt to match the image pattern at the start of `s`.  On success
returns the two capture groups (alt text and reference) together with
the length of the whole match. -/
def matchImageAt (s : List Char) : Option (List Char × List Char × Nat) :=
  match stripPrefixB ('!' :: '[' :: []) s with
  | none => none
  | some t =>
    match splitAtCharB ']' t with
    | none => none
    | some (alt, u) =>
      match stripPrefixB ('(' :: []) u with
      | none => none
      | some v =>
        match splitAtCharB ')' v with
        | none => none
        | some (ref, _) =>
          if ref.isEmpty then none
          else some (alt, ref, alt.length + ref.length + 5)

/-- One match of the image pattern: the two capture groups together
with `match.start()` and `match.end()`. -/
structure ImgMatch where
  start : Nat
  stop : Nat
  alt : List Char
  ref : List Char
  deriving Repr, DecidableEq

theorem matchImageAt_some {s alt ref : List Char} {n : Nat}
    (h : matchImageAt s = some (alt, ref, n)) :
    (∃ w, s = '!' :: '[' :: alt ++ ']' :: '(' :: ref ++ ')' :: w) ∧
    n = alt.length + ref.length + 5 ∧ ref ≠ [] ∧ ']' ∉ alt ∧ ')' ∉ ref := by
  simp only [matchImageAt] at h
  match h1 : stripPrefixB ('!' :: '[' :: []) s with
  | none => rw [h1] at h; simp at h
  | some t =>
    rw [h1] at h
    dsimp only at h
    have hs := stripPrefixB_some h1
    match h2 : splitAtCharB ']' t with
    | none => rw [h2] at h; simp at h
    | some (a, u) =>
      rw [h2] at h
      dsimp only at h
      obtain ⟨ht, ha⟩ := splitAtCharB_some h2
      match h3 : stripPrefixB ('(' :: []) u with
      | none => rw [h3] at h; simp at h
      | some v =>
        rw [h3] at h
        dsimp only at h
        have hu := stripPrefixB_some h3
        match h4 : splitAtCharB ')' v with
        | none => rw [h4] at h; simp at h
        | some (r, w) =>
          rw [h4] at h
          dsimp only at h
          obtain ⟨hv, hr⟩ := splitAtCharB_some h4
          by_cases hre : r.isEmpty
          · rw [if_pos hre] at h; simp at h
          · rw [if_neg hre] at h
            simp only [Option.some.injEq, Prod.mk.injEq] at h
            obtain ⟨e1, e2, e3⟩ := h
            subst e1; subst e2; subst e3
            refine ⟨⟨w, ?_⟩, rfl, by simpa [List.isEmpty_iff] using hre, ha, hr⟩
            simp [hs, ht, hu, hv]

theorem matchImageAt_length {s alt ref : List Char} {n : Nat}
    (h : matchImageAt s = some (alt, ref, n)) : 5 ≤ n ∧ n ≤ s.length := by
  obtain ⟨⟨w, hw⟩, hn, hr, -, -⟩ := matchImageAt_some h
  subst hn
  constructor
  · omega
  · subst hw; simp; omega

/-- `re.finditer` of the image pattern: scan left to right, emitting
non-overlapping leftmost matches; on a failed match the scan advances
by one character. -/
def findImagesGo : Nat → Nat → List Char → List ImgMatch
  | 0, _, _ => []
  | _ + 1, _, [] => []
  | fuel + 1, pos, c :: t =>
    match matchImageAt (c :: t) with
    | some (alt, ref, n) =>
      ⟨pos, pos + n, alt, ref⟩ :: findImagesGo fuel (pos + n) ((c :: t).drop n)
    | none => findImagesGo fuel (pos + 1) t

/-- All matches of the image pattern in document order. -/
def findImages (s : List Char) : List ImgMatch :=
  findImagesGo (s.length + 1) 0 s

/-- The extension set of `_is_local_image` (line 67). -/
def imageExtensions : List (List Char) :=
  [('.' :: 'p' :: 'n' :: 'g' :: []), ('.' :: 'j' :: 'p' :: 'g' :: []),
   ('.' :: 'j' :: 'p' :: 'e' :: 'g' :: []), ('.' :: 'g' :: 'i' :: 'f' :: []),
   ('.' :: 's' :: 'v' :: 'g' :: []), ('.' :: 'w' :: 'e' :: 'b' :: 'p' :: []),
   ('.' :: 'b' :: 'm' :: 'p' :: []), ('.' :: 'i' :: 'c' :: 'o' :: [])]

/-- `MarkdownProcessor._is_local_image` (lines 60–70). -/
def isLocalImage (path : List Char) : Bool :=
  if startsWithB path ('h' :: 't' :: 't' :: 'p' :: ':' :: '/' :: '/' :: []) ||
     startsWithB path ('h' :: 't' :: 't' :: 'p' :: 's' :: ':' :: '/' :: '/' :: []) ||
     startsWithB path ('f' :: 't' :: 'p' :: ':' :: '/' :: '/' :: []) ||
     startsWithB path ('/' :: '/' :: []) then
    false
  else
    let path_lower := pyLower path
    imageExtensions.any (fun ext => endsWithB path_lower ext)

/-- The path joined to the document's parent directory (lines 39–44:
a leading `./` is stripped, otherwise the reference is joined as-is;
`../` references take the same branch as plain relative ones). -/
def resolveRef (ref : List Char) : List Char :=
  if startsWithB ref ('.' :: '/' :: []) then ref.drop 2 else ref

/-- One element of `find_local_images`' result (the dictionary built at
lines 50–56).  The `path` field holds the reference joined to the
document's parent directory; OS-level normalization is abstracted into
the `fs` parameter of `find_local_images`. -/
structure ImageRef where
  alt_text : List Char
  original : List Char
  path : List Char
  match_start : Nat
  match_end : Nat
  deriving Repr, DecidableEq

/-- `MarkdownProcessor.find_local_images` (lines 16–58).  `fs p = true`
models "`(markdown dir / p).resolve()` exists and is a regular file". -/
def findLocalImages (fs : List Char → Bool) (content : List Char) : List ImageRef :=
  ((findImages content).filter fun m => isLocalImage m.ref && fs (resolveRef m.ref)).map
    fun m => ⟨m.alt, m.ref, resolveRef m.ref, m.start, m.stop⟩

/-! ## `replace_urls` (lines 72–93)

For each mapping entry `(original_path, public_url)` the source applies
`re.sub` with the pattern `(\!\[[^\]]*\]\()ESC(original_path)(\))` and
the replacement `\1 + public_url + \2`.  Matching is again
deterministic: `![`, alt text up to the first `]`, then `(`, then the
literal key, then `)`. -/

/-- Attempt to match `(\!\[[^\]]*\]\()key(\))` at the start of `s`:
returns the alt text and the length of the whole match. -/
def matchKeyAt (k : List Char) (s : List Char) : Option (List Char × Nat) :=
  match stripPrefixB ('!' :: '[' :: []) s with
  | none => none
  | some t =>
    match splitAtCharB ']' t with
    | none => none
    | some (alt, u) =>
      match stripPrefixB ('(' :: []) u with
      | none => none
      | some v =>
        match stripPrefixB (k ++ ')' :: []) v with
        | none => none
        | some _ => some (alt, alt.length + k.length + 5)

theorem matchKeyAt_some {k s alt : List Char} {n : Nat}
    (h : matchKeyAt k s = some (alt, n)) :
    (∃ w, s = '!' :: '[' :: alt ++ ']' :: '(' :: k ++ ')' :: w) ∧
    n = alt.length + k.length + 5 ∧ ']' ∉ alt := by
  simp only [matchKeyAt] at h
  match h1 : stripPrefixB ('!' :: '[' :: []) s with
  | none => rw [h1] at h; simp at h
  | some t =>
    rw [h1] at h
    dsimp only at h
    have hs := stripPrefixB_some h1
    match h2 : splitAtCharB ']' t with
    | none => rw [h2] at h; simp at h
    | some (a, u) =>
      rw [h2] at h
      dsimp only at h
      obtain ⟨ht, ha⟩ := splitAtCharB_some h2
      match h3 : stripPrefixB ('(' :: []) u with
      | none => rw [h3] at h; simp at h
      | some v =>
        rw [h3] at h
        dsimp only at h
        have hu := stripPrefixB_some h3
        match h4 : stripPrefixB (k ++ ')' :: []) v with
        | none => rw [h4] at h; simp at h
        | some w =>
          rw [h4] at h
          dsimp only at h
          have hv := stripPrefixB_some h4
          simp only [Option.some.injEq, Prod.mk.injEq] at h
          obtain ⟨e1, e2⟩ := h
          subst e1; subst e2
          refine ⟨⟨w, ?_⟩, rfl, ha⟩
          simp [hs, ht, hu, hv]

theorem matchKeyAt_length {k s alt : List Char} {n : Nat}
    (h : matchKeyAt k s = some (alt, n)) : 5 ≤ n ∧ n ≤ s.length := by
  obtain ⟨⟨w, hw⟩, hn, -⟩ := matchKeyAt_some h
  subst hn
  refine ⟨by omega, ?_⟩
  subst hw; simp; omega

/-! ### Replacement templates

`re.sub` parses its string replacement argument as a template before
scanning the text (so a malformed template raises `re.error` even when
the pattern never matches): `\\1`–`\\99` and `\\g<number>` are group
references, `\\0oo` and three-octal-digit escapes are characters, the
known letter escapes (`\\a \\b \\f \\n \\r \\t \\v \\\\`) are
characters, any other ASCII-letter escape, a trailing backslash, a
group number above the pattern's group count or an octal value above
`0o377` is an error, and a backslash before any other character is
kept literally. -/

/-- One parsed element of a replacement template: a literal character
or a group reference. -/
inductive TItem where
  | lit (c : Char)
  | group (i : Nat)
  deriving Repr, DecidableEq

def isOctDigit (c : Char) : Bool :=
  '0' ≤ c && c ≤ '7'

def digitVal (c : Char) : Nat :=
  c.toNat - 48

/-- `int(name)` on a `\\g<name>` group name that is not an identifier:
surrounding whitespace and a leading `+` are tolerated, otherwise the
name must be a nonempty digit string (an identifier name would be an
unknown-group-name error for this pattern, which has no named
groups). -/
def parseGroupName (name : List Char) : Option Nat :=
  let nm := pyStrip name
  let nm2 := match nm with
    | '+' :: rest => rest
    | _ => nm
  if nm2.isEmpty || !(nm2.all Char.isDigit) then none
  else some (nm2.foldl (fun a c => 10 * a + digitVal c) 0)

/-- `re._parser.parse_template` for a string pattern with `groups`
capture groups; `none` models `re.error`.  Fuelled for
kernel-reducibility: every step consumes at least one character, so
any `fuel > s.length` is exact. -/
def parseTemplateGo (groups : Nat) : Nat → List Char → Option (List TItem)
  | 0, _ => none
  | _ + 1, [] => some []
  | fuel + 1, c :: rest =>
    if c = '\\' then
      match rest with
      | [] => none
      | e :: rest2 =>
        if e = 'g' then
          match rest2 with
          | '<' :: rest3 =>
            match splitAtCharB '>' rest3 with
            | none => none
            | some (name, rest4) =>
              match parseGroupName name with
              | none => none
              | some idx =>
                if groups < idx then none
                else (parseTemplateGo groups fuel rest4).map
                  (fun items => TItem.group idx :: items)
          | _ => none
        else if e = '0' then
          match rest2 with
          | d1 :: rest3 =>
            if isOctDigit d1 then
              match rest3 with
              | d2 :: rest4 =>
                if isOctDigit d2 then
                  (parseTemplateGo groups fuel rest4).map
                    (fun items => TItem.lit (Char.ofNat (8 * digitVal d1 + digitVal d2)) :: items)
                else (parseTemplateGo groups fuel rest3).map
                  (fun items => TItem.lit (Char.ofNat (digitVal d1)) :: items)
              | [] => (parseTemplateGo groups fuel []).map
                  (fun items => TItem.lit (Char.ofNat (digitVal d1)) :: items)
            else (parseTemplateGo groups fuel rest2).map
              (fun items => TItem.lit (Char.ofNat 0) :: items)
          | [] => (parseTemplateGo groups fuel []).map
              (fun items => TItem.lit (Char.ofNat 0) :: items)
        else if e.isDigit then
          match rest2 with
          | d :: rest3 =>
            if d.isDigit then
              match rest3 with
              | d3 :: rest4 =>
                if isOctDigit e && isOctDigit d && isOctDigit d3 then
                  if 255 < 64 * digitVal e + 8 * digitVal d + digitVal d3 then none
                  else (parseTemplateGo groups fuel rest4).map
                    (fun items =>
                      TItem.lit (Char.ofNat (64 * digitVal e + 8 * digitVal d + digitVal d3)) :: items)
                else if groups < 10 * digitVal e + digitVal d then none
                else (parseTemplateGo groups fuel rest3).map
                  (fun items => TItem.group (10 * digitVal e + digitVal d) :: items)
              | [] =>
                if groups < 10 * digitVal e + digitVal d then none
                else (parseTemplateGo groups fuel []).map
                  (fun items => TItem.group (10 * digitVal e + digitVal d) :: items)
            else if groups < digitVal e then none
            else (parseTemplateGo groups fuel rest2).map
              (fun items => TItem.group (digitVal e) :: items)
          | [] =>
            if groups < digitVal e then none
            else (parseTemplateGo groups fuel []).map
              (fun items => TItem.group (digitVal e) :: items)
        else if e = 'a' then (parseTemplateGo groups fuel rest2).map
          (fun items => TItem.lit (Char.ofNat 7) :: items)
        else if e = 'b' then (parseTemplateGo groups fuel rest2).map
          (fun items => TItem.lit (Char.ofNat 8) :: items)
        else if e = 'f' then (parseTemplateGo groups fuel rest2).map
          (fun items => TItem.lit (Char.ofNat 12) :: items)
        else if e = 'n' then (parseTemplateGo groups fuel rest2).map
          (fun items => TItem.lit (Char.ofNat 10) :: items)
        else if e = 'r' then (parseTemplateGo groups fuel rest2).map
          (fun items => TItem.lit (Char.ofNat 13) :: items)
        else if e = 't' then (parseTemplateGo groups fuel rest2).map
          (fun items => TItem.lit (Char.ofNat 9) :: items)
        else if e = 'v' then (parseTemplateGo groups fuel rest2).map
          (fun items => TItem.lit (Char.ofNat 11) :: items)
        else if e = '\\' then (parseTemplateGo groups fuel rest2).map
          (fun items => TItem.lit '\\' :: items)
        else if e.isAlpha then none
        else (parseTemplateGo groups fuel rest2).map
          (fun items => TItem.lit '\\' :: TItem.lit e :: items)
    else (parseTemplateGo groups fuel rest).map (fun items => TItem.lit c :: items)

/-- Parse a replacement template (top level). -/
def parseTemplate (groups : Nat) (t : List Char) : Option (List TItem) :=
  parseTemplateGo groups (t.length + 1) t

/-- Instantiate a parsed template at a match of the two-group anchored
pattern: `g0` is the whole match, `g1` and `g2` the two groups (a
parsed template of a two-group pattern holds no higher reference). -/
def applyTemplate (g0 g1 g2 : List Char) : List TItem → List Char
  | [] => []
  | TItem.lit c :: rest => c :: applyTemplate g0 g1 g2 rest
  | TItem.group 0 :: rest => g0 ++ applyTemplate g0 g1 g2 rest
  | TItem.group 1 :: rest => g1 ++ applyTemplate g0 g1 g2 rest
  | TItem.group 2 :: rest => g2 ++ applyTemplate g0 g1 g2 rest
  | TItem.group _ :: rest => applyTemplate g0 g1 g2 rest

/-- Scan for matches of the anchored pattern and substitute the parsed
template at each non-overlapping leftmost match. -/
def replaceUrlsOneGo (k : List Char) (items : List TItem) : Nat → List Char → List Char
  | 0, s => s
  | _ + 1, [] => []
  | fuel + 1, c :: t =>
    match matchKeyAt k (c :: t) with
    | some (alt, n) =>
      applyTemplate ('!' :: '[' :: alt ++ ']' :: '(' :: k ++ ')' :: [])
          ('!' :: '[' :: alt ++ ']' :: '(' :: []) (')' :: []) items ++
        replaceUrlsOneGo k items fuel ((c :: t).drop n)
    | none => c :: replaceUrlsOneGo k items fuel t

/-- `re.sub(pattern, r'\\1' + public_url + r'\\2', content)` for one
mapping entry (lines 89–91): the replacement template is parsed first
(so a bad template fails even when the pattern has no match, `none`
modelling the raised `re.error`), then every non-overlapping leftmost
match is substituted. -/
def replaceUrlsOne (k url : List Char) (s : List Char) : Option (List Char) :=
  match parseTemplate 2 ('\\' :: '1' :: (url ++ '\\' :: '2' :: [])) with
  | none => none
  | some items => some (replaceUrlsOneGo k items (s.length + 1) s)

/-- Target strings for which the template `\\1<url>\\2` parses exactly
as "group 1, the url verbatim, group 2": no backslash anywhere and no
leading digit (a leading digit merges into the `\\1` group
reference). -/
def templateSafe (url : List Char) : Bool :=
  !(url.elem '\\') &&
    (match url with
     | [] => true
     | c :: _ => !c.isDigit)

/-- The comparison used at line 84: `a` sorts no later than `b` when
`a`'s key is at least as long as `b`'s. -/
def keyLenDesc (a b : List Char × List Char) : Prop :=
  b.1.length ≤ a.1.length

instance : DecidableRel keyLenDesc :=
  fun a b => Nat.decLe b.1.length a.1.length

instance : IsTotal (List Char × List Char) keyLenDesc :=
  ⟨fun a b => Nat.le_total b.1.length a.1.length⟩

instance : IsTrans (List Char × List Char) keyLenDesc :=
  ⟨fun _ _ _ h1 h2 => Nat.le_trans h2 h1⟩

/-- Python `sorted(url_mappings.items(), key=lambda x: len(x[0]),
reverse=True)`: a stable sort by descending key length (line 84);
`insertionSort` with this relation is stable, and stable sorts under
the same total preorder agree. -/
def sortMappings (m : List (List Char × List Char)) : List (List Char × List Char) :=
  List.insertionSort keyLenDesc m

/-- The loop of lines 86–91: apply the entries in order, stopping with
`none` when an entry's replacement template raises (the exception
propagates out of `replace_urls`). -/
def replaceUrlsAll : List Char → List (List Char × List Char) → Option (List Char)
  | content, [] => some content
  | content, (k, v) :: rest =>
    match replaceUrlsOne k v content with
    | none => none
    | some content2 => replaceUrlsAll content2 rest

/-- `MarkdownProcessor.replace_urls` (lines 72–93); `none` models a
raised `re.error`. -/
def replaceUrls (content : List Char) (url_mappings : List (List Char × List Char)) :
    Option (List Char) :=
  replaceUrlsAll content (sortMappings url_mappings)

/-! ## MD5 (`hashlib.md5`, used at line 111)

Straightforward model of MD5 (RFC 1321) over byte lists, with 32-bit
words as `Nat` reduced modulo `2^32`. -/

/-- UTF-8 encoding of one character (Python `str.encode()`). -/
def utf8Char (c : Char) : List Nat :=
  let n := c.toNat
  if n < 128 then [n]
  else if n < 2048 then [192 + n / 64, 128 + n % 64]
  else if n < 65536 then [224 + n / 4096, 128 + (n / 64) % 64, 128 + n % 64]
  else [240 + n / 262144, 128 + (n / 4096) % 64, 128 + (n / 64) % 64, 128 + n % 64]

/-- UTF-8 encoding of a string as a byte list. -/
def utf8Bytes (s : List Char) : List Nat :=
  (s.map utf8Char).flatten

def w32 (n : Nat) : Nat := n % 4294967296

def wadd (a b : Nat) : Nat := (a + b) % 4294967296

def wnot (a : Nat) : Nat := 4294967295 - a % 4294967296

def rotl (x s : Nat) : Nat :=
  (((x % 4294967296) <<< s) % 4294967296) ||| ((x % 4294967296) >>> (32 - s))

/-- The 64 MD5 sine-table constants (RFC 1321). -/
def md5K : List Nat :=
  [0xd76aa478, 0xe8c7b756, 0x242070db, 0xc1bdceee,
   0xf57c0faf, 0x4787c62a, 0xa8304613, 0xfd469501,
   0x698098d8, 0x8b44f7af, 0xffff5bb1, 0x895cd7be,
   0x6b901122, 0xfd987193, 0xa679438e, 0x49b40821,
   0xf61e2562, 0xc040b340, 0x265e5a51, 0xe9b6c7aa,
   0xd62f105d, 0x02441453, 0xd8a1e681, 0xe7d3fbc8,
   0x21e1cde6, 0xc33707d6, 0xf4d50d87, 0x455a14ed,
   0xa9e3e905, 0xfcefa3f8, 0x676f02d9, 0x8d2a4c8a,
   0xfffa3942, 0x8771f681, 0x6d9d6122, 0xfde5380c,
   0xa4beea44, 0x4bdecfa9, 0xf6bb4b60, 0xbebfbc70,
   0x289b7ec6, 0xeaa127fa, 0xd4ef3085, 0x04881d05,
   0xd9d4d039, 0xe6db99e5, 0x1fa27cf8, 0xc4ac5665,
   0xf4292244, 0x432aff97, 0xab9423a7, 0xfc93a039,
   0x655b59c3, 0x8f0ccc92, 0xffeff47d, 0x85845dd1,
   0x6fa87e4f, 0xfe2ce6e0, 0xa3014314, 0x4e0811a1,
   0xf7537e82, 0xbd3af235, 0x2ad7d2bb, 0xeb86d391]

/-- The per-step left-rotation amounts (RFC 1321). -/
def md5S : List Nat :=
  [7, 12, 17, 22, 7, 12, 17, 22, 7, 12, 17, 22, 7, 12, 17, 22,
   5, 9, 14, 20, 5, 9, 14, 20, 5, 9, 14, 20, 5, 9, 14, 20,
   4, 11, 16, 23, 4, 11, 16, 23, 4, 11, 16, 23, 4, 11, 16, 23,
   6, 10, 15, 21, 6, 10, 15, 21, 6, 10, 15, 21, 6, 10, 15, 21]

/-- The round functions F, G, H, I selected by step index. -/
def md5F (i b c d : Nat) : Nat :=
  if i < 16 then (b &&& c) ||| (wnot b &&& d)
  else if i < 32 then (b &&& d) ||| (c &&& wnot d)
  else if i < 48 then b ^^^ c ^^^ d
  else c ^^^ (b ||| wnot d)

/-- The message-word index used at step `i`. -/
def md5G (i : Nat) : Nat :=
  if i < 16 then i
  else if i < 32 then (5 * i + 1) % 16
  else if i < 48 then (3 * i + 5) % 16
  else (7 * i) % 16

/-- One of the 64 MD5 steps. -/
def md5Step (M : List Nat) (st : Nat × Nat × Nat × Nat) (i : Nat) : Nat × Nat × Nat × Nat :=
  match st with
  | (a, b, c, d) =>
    let f := wadd (wadd (wadd a (md5F i b c d)) (md5K.getD i 0)) (M.getD (md5G i) 0)
    (d, wadd b (rotl f (md5S.getD i 0)), b, c)

/-- Process one 16-word block. -/
def md5Block (st : Nat × Nat × Nat × Nat) (M : List Nat) : Nat × Nat × Nat × Nat :=
  match st, (List.range 64).foldl (md5Step M) st with
  | (a, b, c, d), (a', b', c', d') => (wadd a a', wadd b b', wadd c c', wadd d d')

/-- Group a byte list into little-endian 32-bit words. -/
def toWordsLE : List Nat → List Nat
  | b0 :: b1 :: b2 :: b3 :: rest =>
    (b0 + 256 * b1 + 65536 * b2 + 16777216 * b3) :: toWordsLE rest
  | _ => []

/-- MD5 padding: `0x80`, zeros to 56 mod 64, then the bit length as
eight little-endian bytes. -/
def md5Pad (msg : List Nat) : List Nat :=
  let len := msg.length
  let z := (120 - ((len + 1) % 64)) % 64
  msg ++ (128 :: List.replicate z 0) ++
    ((List.range 8).map fun i => (((8 * len) % 18446744073709551616) >>> (8 * i)) % 256)

/-- Split a byte list into 64-byte blocks (fuelled for
kernel-reducibility; any `fuel ≥ length` suffices since each step
consumes 64 bytes). -/
def toBlocksGo : Nat → List Nat → List (List Nat)
  | 0, _ => []
  | _ + 1, [] => []
  | fuel + 1, b :: rest => ((b :: rest).take 64) :: toBlocksGo fuel ((b :: rest).drop 64)

/-- Split a byte list into 64-byte blocks. -/
def toBlocks (bs : List Nat) : List (List Nat) :=
  toBlocksGo (bs.length + 1) bs

/-- MD5 digest of a byte list, as 16 bytes. -/
def md5Bytes (msg : List Nat) : List Nat :=
  let le4 : Nat → List Nat := fun x =>
    [x % 256, (x >>> 8) % 256, (x >>> 16) % 256, (x >>> 24) % 256]
  match (toBlocks (md5Pad msg)).foldl (fun st blk => md5Block st (toWordsLE blk))
      (0x67452301, 0xefcdab89, 0x98badcfe, 0x10325476) with
  | (a, b, c, d) => le4 a ++ le4 b ++ le4 c ++ le4 d

def hexDigit (n : Nat) : Char :=
  if n < 10 then Char.ofNat (48 + n) else Char.ofNat (87 + n)

/-- Lowercase hexadecimal digest string (`hexdigest()`). -/
def md5hex (msg : List Nat) : List Char :=
  (md5Bytes msg).foldr (fun b acc => hexDigit (b / 16) :: hexDigit (b % 16) :: acc) []

/-- The content hash computed at line 111:
`hashlib.md5(puml_content.encode()).hexdigest()[:8]` as a function of
the raw (untrimmed) block body, whose `strip()` is `puml_content`. -/
def hash8 (s : List Char) : List Char :=
  (md5hex (utf8Bytes (pyStrip s))).take 8

/-! ## `find_plantuml_blocks` (lines 95–129)

The pattern is ```` ```plantuml\s*\n(.*?)``` ```` with `re.DOTALL`.
The greedy `\s*` followed by `\n` commits to the last newline of the
maximal whitespace run after the fence tag (any shorter choice leaves
only whitespace, which cannot begin the body's terminating ``` ``` ``,
so backtracking is immaterial); the non-greedy body then extends to the
first following ``` ``` ``. -/

/-- Attempt to match the PlantUML fence pattern at the start of `s`:
returns the raw body (capture group 1) and the length of the whole
match. -/
def matchPumlAt (s : List Char) : Option (List Char × Nat) :=
  match stripPrefixB ('`' :: '`' :: '`' :: 'p' :: 'l' :: 'a' :: 'n' :: 't' :: 'u' :: 'm' :: 'l' :: []) s with
  | none => none
  | some t =>
    match splitLastCharB '\n' (t.takeWhile pyIsSpace) with
    | none => none
    | some (a, b) =>
      match splitFirstSubstrB ('`' :: '`' :: '`' :: []) (b ++ t.dropWhile pyIsSpace) with
      | none => none
      | some (body, _) => some (body, 11 + a.length + 1 + body.length + 3)

/-- One PlantUML block record (the dictionary built at lines 113–120). -/
structure PumlBlock where
  content : List Char
  full_match : List Char
  match_start : Nat
  match_end : Nat
  diagram_name : List Char
  hash : List Char
  deriving Repr, DecidableEq, Inhabited

/-- Attempt to match `@startuml\s+(\S+)` at the start of `s`. -/
def tryNameAt (s : List Char) : Option (List Char) :=
  match stripPrefixB ('@' :: 's' :: 't' :: 'a' :: 'r' :: 't' :: 'u' :: 'm' :: 'l' :: []) s with
  | none => none
  | some t =>
    let w := t.takeWhile pyIsSpace
    let name := (t.dropWhile pyIsSpace).takeWhile (fun c => !(pyIsSpace c))
    if w.isEmpty || name.isEmpty then none else some name

/-- `re.search` of `@startuml\s+(\S+)`: first match anywhere. -/
def searchName : List Char → Option (List Char)
  | [] => none
  | c :: t =>
    match tryNameAt (c :: t) with
    | some nm => some nm
    | none => searchName t

/-- `MarkdownProcessor._extract_diagram_name` (lines 124–129). -/
def extractDiagramName (puml : List Char) : List Char :=
  match searchName puml with
  | some nm => nm
  | none => 'd' :: 'i' :: 'a' :: 'g' :: 'r' :: 'a' :: 'm' :: []

theorem startsWithB_iff {s p : List Char} :
    startsWithB s p = true ↔ ∃ r, s = p ++ r := by
  induction p generalizing s with
  | nil => simp [startsWithB]
  | cons x ps ih =>
    cases s with
    | nil => simp [startsWithB]
    | cons c t =>
      simp only [startsWithB, Bool.and_eq_true, decide_eq_true_eq]
      constructor
      · rintro ⟨hc, hr⟩
        obtain ⟨r, hr'⟩ := ih.mp hr
        exact ⟨r, by simp [hc, hr']⟩
      · rintro ⟨r, hr⟩
        simp only [List.cons_append, List.cons.injEq] at hr
        exact ⟨hr.1, ih.mpr ⟨r, hr.2⟩⟩

theorem splitLastCharB_some {c : Char} {s a b : List Char}
    (h : splitLastCharB c s = some (a, b)) : s = a ++ c :: b ∧ c ∉ b := by
  simp only [splitLastCharB] at h
  match hsp : splitAtCharB c s.reverse with
  | none => rw [hsp] at h; simp at h
  | some (x, y) =>
    rw [hsp] at h
    simp only [Option.map_some', Option.some.injEq, Prod.mk.injEq] at h
    obtain ⟨ha, hb⟩ := h
    obtain ⟨hrev, hcx⟩ := splitAtCharB_some hsp
    have hs : s = y.reverse ++ c :: x.reverse := by
      have := congrArg List.reverse hrev
      simpa [List.reverse_append] using this
    subst ha; subst hb
    exact ⟨hs, by simpa using hcx⟩

theorem splitFirstSubstrB_some {pat s a b : List Char}
    (h : splitFirstSubstrB pat s = some (a, b)) : s = a ++ pat ++ b := by
  induction s generalizing a b with
  | nil =>
    simp only [splitFirstSubstrB] at h
    by_cases hp : pat.isEmpty
    · rw [if_pos hp] at h
      simp only [Option.some.injEq, Prod.mk.injEq] at h
      obtain ⟨ha, hb⟩ := h
      subst ha; subst hb
      simp [List.isEmpty_iff.mp hp]
    · rw [if_neg hp] at h; simp at h
  | cons x t ih =>
    simp only [splitFirstSubstrB] at h
    by_cases hsw : startsWithB (x :: t) pat
    · rw [if_pos hsw] at h
      simp only [Option.some.injEq, Prod.mk.injEq] at h
      obtain ⟨ha, hb⟩ := h
      obtain ⟨r, hr⟩ := startsWithB_iff.mp hsw
      subst ha
      rw [hr] at hb ⊢
      rw [List.drop_left] at hb
      simp [← hb]
    · rw [if_neg hsw] at h
      match hsp : splitFirstSubstrB pat t with
      | none => rw [hsp] at h; simp at h
      | some (a', b') =>
        rw [hsp] at h
        simp only [Option.map_some', Option.some.injEq, Prod.mk.injEq] at h
        obtain ⟨ha, hb⟩ := h
        subst ha; subst hb
        simp [ih hsp]

theorem matchPumlAt_some {s body : List Char} {n : Nat}
    (h : matchPumlAt s = some (body, n)) :
    ∃ a after,
      s = ('`' :: '`' :: '`' :: 'p' :: 'l' :: 'a' :: 'n' :: 't' :: 'u' :: 'm' :: 'l' :: [])
          ++ a ++ '\n' :: body ++ ('`' :: '`' :: '`' :: []) ++ after ∧
      n = 15 + a.length + body.length := by
  simp only [matchPumlAt] at h
  match h1 : stripPrefixB ('`' :: '`' :: '`' :: 'p' :: 'l' :: 'a' :: 'n' :: 't' :: 'u' :: 'm' :: 'l' :: []) s with
  | none => rw [h1] at h; simp at h
  | some t =>
    rw [h1] at h
    dsimp only at h
    have hs := stripPrefixB_some h1
    match h2 : splitLastCharB '\n' (t.takeWhile pyIsSpace) with
    | none => rw [h2] at h; simp at h
    | some (a, b) =>
      rw [h2] at h
      dsimp only at h
      obtain ⟨hw, -⟩ := splitLastCharB_some h2
      match h3 : splitFirstSubstrB ('`' :: '`' :: '`' :: []) (b ++ t.dropWhile pyIsSpace) with
      | none => rw [h3] at h; simp at h
      | some (bd, after) =>
        rw [h3] at h
        simp only [Option.some.injEq, Prod.mk.injEq] at h
        obtain ⟨e1, e2⟩ := h
        subst e1; subst e2
        have hsplit := splitFirstSubstrB_some h3
        refine ⟨a, after, ?_, by omega⟩
        have ht : t = a ++ '\n' :: (b ++ t.dropWhile pyIsSpace) := by
          conv_lhs => rw [← List.takeWhile_append_dropWhile pyIsSpace t]
          rw [hw]
          simp
        rw [hs, ht, hsplit]
        simp

theorem matchPumlAt_length {s body : List Char} {n : Nat}
    (h : matchPumlAt s = some (body, n)) : 15 ≤ n ∧ n ≤ s.length := by
  obtain ⟨a, after, hdecomp, hn⟩ := matchPumlAt_some h
  subst hn
  refine ⟨by omega, ?_⟩
  subst hdecomp
  simp
  omega

/-- `re.finditer` of the PlantUML fence pattern, building the block
records of lines 108–120. -/
def findPumlGo : Nat → Nat → List Char → List PumlBlock
  | 0, _, _ => []
  | _ + 1, _, [] => []
  | fuel + 1, pos, c :: t =>
    match matchPumlAt (c :: t) with
    | some (body, n) =>
      { content := pyStrip body
        full_match := (c :: t).take n
        match_start := pos
        match_end := pos + n
        diagram_name := extractDiagramName (pyStrip body)
        hash := (md5hex (utf8Bytes (pyStrip body))).take 8 } ::
        findPumlGo fuel (pos + n) ((c :: t).drop n)
    | none => findPumlGo fuel (pos + 1) t

/-- `MarkdownProcessor.find_plantuml_blocks` (lines 95–122). -/
def findPlantumlBlocks (content : List Char) : List PumlBlock :=
  findPumlGo (content.length + 1) 0 content

/-- The embed line `![name](path)` built at line 143. -/
def imageEmbed (name path : List Char) : List Char :=
  '!' :: '[' :: name ++ ']' :: '(' :: path ++ ')' :: []

/-- `MarkdownProcessor.replace_plantuml_with_image` (lines 131–144):
`content.replace(block['full_match'], f'![{block["diagram_name"]}]({image_path})')`. -/
def replacePlantumlWithImage (content : List Char) (block : PumlBlock)
    (image_path : List Char) : List Char :=
  pyReplace content block.full_match (imageEmbed block.diagram_name image_path)

/-! ## Generic substring lemmas -/

theorem isSubstr_nil {p : List Char} : IsSubstr p [] ↔ p = [] := by
  constructor
  · rintro ⟨x, y, h⟩
    have := congrArg List.length h
    simp at this
    exact List.eq_nil_of_length_eq_zero (by omega)
  · rintro rfl
    exact ⟨[], [], rfl⟩

theorem isSubstr_cons_iff {p : List Char} {c : Char} {t : List Char} :
    IsSubstr p (c :: t) ↔ (∃ r, c :: t = p ++ r) ∨ IsSubstr p t := by
  constructor
  · rintro ⟨x, y, h⟩
    cases x with
    | nil => exact Or.inl ⟨y, by simpa using h⟩
    | cons c' x' =>
      simp only [List.cons_append, List.cons.injEq] at h
      exact Or.inr ⟨x', y, h.2⟩
  · rintro (⟨r, hr⟩ | ⟨x, y, h⟩)
    · exact ⟨[], r, by simpa using hr⟩
    · exact ⟨c :: x, y, by simp [h]⟩

theorem isSubstrB_iff {p s : List Char} : isSubstrB p s = true ↔ IsSubstr p s := by
  induction s with
  | nil =>
    simp [isSubstrB, isSubstr_nil, List.isEmpty_iff]
  | cons c t ih =>
    simp only [isSubstrB, Bool.or_eq_true, startsWithB_iff, ih, isSubstr_cons_iff]

theorem isSubstr_cons {p : List Char} {c : Char} {t : List Char}
    (h : IsSubstr p t) : IsSubstr p (c :: t) :=
  isSubstr_cons_iff.mpr (Or.inr h)

theorem isSubstr_append_left {p s u : List Char} (h : IsSubstr p s) :
    IsSubstr p (u ++ s) := by
  obtain ⟨x, y, rfl⟩ := h
  exact ⟨u ++ x, y, by simp⟩

theorem isSubstr_append_right {p s u : List Char} (h : IsSubstr p s) :
    IsSubstr p (s ++ u) := by
  obtain ⟨x, y, rfl⟩ := h
  exact ⟨x, y ++ u, by simp⟩

theorem mem_of_isSubstr {p s : List Char} (h : IsSubstr p s) {ch : Char}
    (hc : ch ∈ p) : ch ∈ s := by
  obtain ⟨x, y, rfl⟩ := h
  simp [hc]

/-- Occurrence analysis over an append: an occurrence of `M` in
`a ++ b` lies inside `a`, lies inside `b`, or splits as a nonempty
suffix of `a` followed by a nonempty prefix of `b`. -/
theorem isSubstr_append_cases {M a b : List Char} (h : IsSubstr M (a ++ b)) :
    IsSubstr M a ∨ IsSubstr M b ∨
    ∃ M1 M2, M = M1 ++ M2 ∧ M1 ≠ [] ∧ M2 ≠ [] ∧ M1 <:+ a ∧ M2 <+: b := by
  induction a with
  | nil => exact Or.inr (Or.inl (by simpa using h))
  | cons c a' ih =>
    rw [List.cons_append] at h
    rcases isSubstr_cons_iff.mp h with ⟨r, hr⟩ | hrest
    · have hr' : (c :: a') ++ b = M ++ r := by simpa using hr
      have htake : ((c :: a') ++ b).take M.length = M := by
        rw [hr', List.take_left]
      have hlenr : M.length ≤ (c :: a').length + b.length := by
        have := congrArg List.length hr'
        simp only [List.length_append] at this
        omega
      by_cases hlen : M.length ≤ (c :: a').length
      · left
        have hz : M.length - (c :: a').length = 0 := by omega
        have hMa : M = (c :: a').take M.length := by
          calc M = List.take M.length ((c :: a') ++ b) := htake.symm
            _ = List.take M.length (c :: a') ++ List.take (M.length - (c :: a').length) b :=
              List.take_append_eq_append_take
            _ = (c :: a').take M.length := by rw [hz, List.take_zero, List.append_nil]
        refine ⟨[], (c :: a').drop M.length, ?_⟩
        rw [List.nil_append]
        conv_lhs => rw [← List.take_append_drop M.length (c :: a')]
        exact congrArg (fun z => z ++ (c :: a').drop M.length) hMa.symm
      · right; right
        have hMa : M = (c :: a') ++ b.take (M.length - (c :: a').length) := by
          calc M = List.take M.length ((c :: a') ++ b) := htake.symm
            _ = List.take M.length (c :: a') ++ List.take (M.length - (c :: a').length) b :=
              List.take_append_eq_append_take
            _ = (c :: a') ++ b.take (M.length - (c :: a').length) := by
              rw [List.take_of_length_le (by omega)]
        refine ⟨c :: a', b.take (M.length - (c :: a').length), hMa, by simp, ?_,
          List.suffix_refl _, List.take_prefix _ _⟩
        intro hnil
        have hlb : (b.take (M.length - (c :: a').length)).length = 0 := by
          rw [hnil]; rfl
        rw [List.length_take] at hlb
        simp only [List.length_cons] at hlb hlen hlenr
        omega
    · rcases ih hrest with hina | hinb | ⟨M1, M2, hM, h1, h2, hsuf, hpre⟩
      · left
        obtain ⟨x, y, hxy⟩ := hina
        exact ⟨c :: x, y, by simp [hxy]⟩
      · exact Or.inr (Or.inl hinb)
      · right; right
        exact ⟨M1, M2, hM, h1, h2, hsuf.trans (List.suffix_cons _ _), hpre⟩

/-! ## Claim theorems -/

/-- C5: `replace_urls` with an empty mapping returns the text
byte-identical (no `re.sub` call is made, so no template is parsed). -/
theorem replaceUrls_empty_mapping (T : List Char) : replaceUrls T [] = some T := by
  simp [replaceUrls, sortMappings, List.insertionSort, replaceUrlsAll]

/-- C1: `replace_urls` applies mapping entries in descending order of
key length (the applied list is `keyLenDesc`-sorted and a permutation
of the mapping), and on the concrete prefix-collision case
`![a](assets/img.png)` with `{img.png ↦ WRONG, assets/img.png ↦ RIGHT}`
(in either dictionary order) the result is `![a](RIGHT)`; `WRONG` never
appears. -/
theorem replaceUrls_ordered_by_descending_key_length :
    (∀ m : List (List Char × List Char),
      List.Sorted keyLenDesc (sortMappings m) ∧ (sortMappings m).Perm m) ∧
    replaceUrls ("![a](assets/img.png)".data)
      [("img.png".data, "WRONG".data), ("assets/img.png".data, "RIGHT".data)] =
      some ("![a](RIGHT)".data) ∧
    replaceUrls ("![a](assets/img.png)".data)
      [("assets/img.png".data, "RIGHT".data), ("img.png".data, "WRONG".data)] =
      some ("![a](RIGHT)".data) ∧
    (replaceUrls ("![a](assets/img.png)".data)
        [("img.png".data, "WRONG".data), ("assets/img.png".data, "RIGHT".data)]).map
      (fun r => isSubstrB "WRONG".data r) = some false := by
  refine ⟨fun m => ⟨List.sorted_insertionSort keyLenDesc m, List.perm_insertionSort keyLenDesc m⟩,
    ?_, ?_, ?_⟩
  · decide
  · decide
  · decide

/-- C10: the remote-scheme rejection of `_is_local_image` is
case-sensitive while the extension check is case-insensitive: any
reference beginning with an uppercase letter (so in particular
`HTTP://…` and `HTTPS://…`) whose lowercased form ends in a recognized
image extension is classified as a local image. -/
theorem isLocalImage_uppercase_scheme (c0 : Char) (rest : List Char)
    (h1 : 'A' ≤ c0) (h2 : c0 ≤ 'Z')
    (h3 : imageExtensions.any (fun ext => endsWithB (pyLower (c0 :: rest)) ext) = true) :
    isLocalImage (c0 :: rest) = true := by
  have hne1 : c0 ≠ 'h' := by
    intro he; subst he; exact absurd h2 (by decide)
  have hne2 : c0 ≠ 'f' := by
    intro he; subst he; exact absurd h2 (by decide)
  have hne3 : c0 ≠ '/' := by
    intro he; subst he; exact absurd h1 (by decide)
  simp only [isLocalImage, startsWithB, eq_false hne1, eq_false hne2, eq_false hne3,
    decide_False, Bool.false_and, Bool.or_self, Bool.or_false, if_false]
  exact h3

/-- Witness for C10 at the concrete reference `HTTP://X.PNG`. -/
theorem isLocalImage_uppercase_scheme_witness :
    isLocalImage ('H' :: "TTP://X.PNG".data) = true :=
  isLocalImage_uppercase_scheme 'H' "TTP://X.PNG".data (by decide) (by decide) (by decide)

/-! ## Scanner order and membership -/

theorem findImagesGo_start_le {fuel pos : Nat} {s : List Char} {m : ImgMatch}
    (h : m ∈ findImagesGo fuel pos s) : pos ≤ m.start := by
  induction fuel generalizing pos s with
  | zero => simp [findImagesGo] at h
  | succ fuel ih =>
    cases s with
    | nil => simp [findImagesGo] at h
    | cons c t =>
      cases hm : matchImageAt (c :: t) with
      | none =>
        simp only [findImagesGo, hm] at h
        exact Nat.le_of_succ_le (ih h)
      | some val =>
        obtain ⟨alt, ref, n⟩ := val
        simp only [findImagesGo, hm, List.mem_cons] at h
        rcases h with rfl | h
        · exact Nat.le_refl _
        · exact Nat.le_trans (Nat.le_add_right _ _) (ih h)

theorem findImagesGo_pairwise (fuel pos : Nat) (s : List Char) :
    (findImagesGo fuel pos s).Pairwise (fun a b => a.start < b.start) := by
  induction fuel generalizing pos s with
  | zero => simp [findImagesGo]
  | succ fuel ih =>
    cases s with
    | nil => simp [findImagesGo]
    | cons c t =>
      cases hm : matchImageAt (c :: t) with
      | none =>
        simp only [findImagesGo, hm]
        exact ih _ _
      | some val =>
        obtain ⟨alt, ref, n⟩ := val
        simp only [findImagesGo, hm]
        refine List.Pairwise.cons ?_ (ih _ _)
        intro b hb
        have h5 := (matchImageAt_length hm).1
        have := findImagesGo_start_le hb
        simp only
        omega

theorem findImagesGo_ref_ne_nil {fuel pos : Nat} {s : List Char} {m : ImgMatch}
    (h : m ∈ findImagesGo fuel pos s) : m.ref ≠ [] := by
  induction fuel generalizing pos s with
  | zero => simp [findImagesGo] at h
  | succ fuel ih =>
    cases s with
    | nil => simp [findImagesGo] at h
    | cons c t =>
      cases hm : matchImageAt (c :: t) with
      | none =>
        simp only [findImagesGo, hm] at h
        exact ih h
      | some val =>
        obtain ⟨alt, ref, n⟩ := val
        simp only [findImagesGo, hm, List.mem_cons] at h
        rcases h with rfl | h
        · exact (matchImageAt_some hm).2.2.1
        · exact ih h

theorem findPumlGo_start_le {fuel pos : Nat} {s : List Char} {b : PumlBlock}
    (h : b ∈ findPumlGo fuel pos s) : pos ≤ b.match_start := by
  induction fuel generalizing pos s with
  | zero => simp [findPumlGo] at h
  | succ fuel ih =>
    cases s with
    | nil => simp [findPumlGo] at h
    | cons c t =>
      cases hm : matchPumlAt (c :: t) with
      | none =>
        simp only [findPumlGo, hm] at h
        exact Nat.le_of_succ_le (ih h)
      | some val =>
        obtain ⟨body, n⟩ := val
        simp only [findPumlGo, hm, List.mem_cons] at h
        rcases h with rfl | h
        · exact Nat.le_refl _
        · exact Nat.le_trans (Nat.le_add_right _ _) (ih h)

theorem findPumlGo_pairwise (fuel pos : Nat) (s : List Char) :
    (findPumlGo fuel pos s).Pairwise (fun a b => a.match_start < b.match_start) := by
  induction fuel generalizing pos s with
  | zero => simp [findPumlGo]
  | succ fuel ih =>
    cases s with
    | nil => simp [findPumlGo]
    | cons c t =>
      cases hm : matchPumlAt (c :: t) with
      | none =>
        simp only [findPumlGo, hm]
        exact ih _ _
      | some val =>
        obtain ⟨body, n⟩ := val
        simp only [findPumlGo, hm]
        refine List.Pairwise.cons ?_ (ih _ _)
        intro b hb
        have h5 := (matchPumlAt_length hm).1
        have := findPumlGo_start_le hb
        simp only
        omega

/-- C8: scan results are in strict left-to-right document order: the
match-start positions of `findImages`, `find_local_images` and
`find_plantuml_blocks` output are strictly increasing. -/
theorem scan_order_strictly_increasing :
    (∀ s : List Char, ((findImages s).map ImgMatch.start).Chain' (fun a b => a < b)) ∧
    (∀ (fs : List Char → Bool) (c : List Char),
      ((findLocalImages fs c).map ImageRef.match_start).Chain' (fun a b => a < b)) ∧
    (∀ c : List Char,
      ((findPlantumlBlocks c).map PumlBlock.match_start).Chain' (fun a b => a < b)) := by
  refine ⟨?_, ?_, ?_⟩
  · intro s
    rw [List.chain'_iff_pairwise, List.pairwise_map]
    exact findImagesGo_pairwise _ _ _
  · intro fs c
    rw [List.chain'_iff_pairwise, List.pairwise_map]
    simp only [findLocalImages]
    rw [List.pairwise_map]
    exact (findImagesGo_pairwise _ _ _).filter _
  · intro c
    rw [List.chain'_iff_pairwise, List.pairwise_map]
    exact findPumlGo_pairwise _ _ _

/-- C3: every element of `find_local_images` passes the three
local-image conditions (no remote scheme prefix, recognized lowercased
extension, resolved path exists as a regular file), any image-pattern
match failing one of them contributes no element, and the concrete
remote-only document yields the empty list for every filesystem. -/
theorem findLocalImages_only_local :
    (∀ (fs : List Char → Bool) (content : List Char) (r : ImageRef),
      r ∈ findLocalImages fs content →
      startsWithB r.original ('h' :: 't' :: 't' :: 'p' :: ':' :: '/' :: '/' :: []) = false ∧
      startsWithB r.original ('h' :: 't' :: 't' :: 'p' :: 's' :: ':' :: '/' :: '/' :: []) = false ∧
      startsWithB r.original ('f' :: 't' :: 'p' :: ':' :: '/' :: '/' :: []) = false ∧
      startsWithB r.original ('/' :: '/' :: []) = false ∧
      imageExtensions.any (fun ext => endsWithB (pyLower r.original) ext) = true ∧
      fs (resolveRef r.original) = true) ∧
    (∀ (fs : List Char → Bool) (content : List Char) (m : ImgMatch),
      m ∈ findImages content →
      (isLocalImage m.ref && fs (resolveRef m.ref)) = false →
      ∀ r ∈ findLocalImages fs content, r.match_start ≠ m.start) ∧
    (∀ fs : List Char → Bool,
      findLocalImages fs ("![x](https://example.com/a.png)".data) = []) := by
  refine ⟨?_, ?_, ?_⟩
  · intro fs content r hr
    obtain ⟨m, hmf, rfl⟩ := List.mem_map.mp hr
    obtain ⟨hmem, hpred⟩ := List.mem_filter.mp hmf
    simp only [Bool.and_eq_true] at hpred
    obtain ⟨hloc, hfs⟩ := hpred
    simp only [isLocalImage] at hloc
    split at hloc
    · exact absurd hloc (by simp)
    · next hcond =>
      simp only [Bool.or_eq_true, not_or, Bool.not_eq_true] at hcond
      exact ⟨hcond.1.1.1, hcond.1.1.2, hcond.1.2, hcond.2, hloc, hfs⟩
  · intro fs content m hm hfail r hr hstart
    obtain ⟨m', hmf, hr'⟩ := List.mem_map.mp hr
    obtain ⟨hmem', hpred'⟩ := List.mem_filter.mp hmf
    have hstart' : m'.start = m.start := by
      rw [← hstart, ← hr']
    have hne : m' = m := by
      by_contra hne
      have hpw := (findImagesGo_pairwise (content.length + 1) 0 content).imp
        (fun hlt => Nat.ne_of_lt hlt)
      have hsymm : Symmetric (fun a b : ImgMatch => a.start ≠ b.start) := by
        intro a b hab
        exact fun he => hab he.symm
      exact (hpw.forall hsymm hmem' hm hne) hstart'
    rw [hne] at hpred'
    rw [hfail] at hpred'
    exact absurd hpred' (by simp)
  · intro fs
    have hfi : findImages ("![x](https://example.com/a.png)".data) =
        [⟨0, 31, 'x' :: [], "https://example.com/a.png".data⟩] := by decide
    simp only [findLocalImages, hfi]
    have hloc : isLocalImage ("https://example.com/a.png".data) = false := by decide
    simp [hloc]

/-- C9 counterexample: the image pattern does not match an empty
reference, so `![x]()` produces no match at all. -/
theorem findImages_empty_ref_no_match : findImages ("![x]()".data) = [] := by
  decide

/-- C9 (amended): empty alt text is matched and passed through, but an
empty reference is not syntactically valid to the pattern (`[^)]+`
requires at least one character): `![x]()` yields no match and every
reference the scanner returns is nonempty. -/
theorem findImages_empty_components :
    findImages ("![x]()".data) = [] ∧
    findImages ("![](ref.png)".data) = [⟨0, 12, [], "ref.png".data⟩] ∧
    (∀ (s : List Char) (m : ImgMatch), m ∈ findImages s → m.ref ≠ []) := by
  refine ⟨by decide, by decide, ?_⟩
  intro s m hm
  exact findImagesGo_ref_ne_nil hm

/-- Witness for C9's general part at the concrete document
`![](ref.png)`. -/
theorem findImages_empty_components_witness :
    (⟨0, 12, [], "ref.png".data⟩ : ImgMatch).ref ≠ [] :=
  findImages_empty_components.2.2 ("![](ref.png)".data) _ (by decide)

/-- Witness for C3 at the concrete document `![a](b.png)` with a
filesystem on which every path exists. -/
theorem findLocalImages_only_local_witness :
    startsWithB ("b.png".data) ('h' :: 't' :: 't' :: 'p' :: ':' :: '/' :: '/' :: []) = false ∧
    startsWithB ("b.png".data) ('h' :: 't' :: 't' :: 'p' :: 's' :: ':' :: '/' :: '/' :: []) = false ∧
    startsWithB ("b.png".data) ('f' :: 't' :: 'p' :: ':' :: '/' :: '/' :: []) = false ∧
    startsWithB ("b.png".data) ('/' :: '/' :: []) = false ∧
    imageExtensions.any (fun ext => endsWithB (pyLower ("b.png".data)) ext) = true ∧
    (fun _ : List Char => true) (resolveRef ("b.png".data)) = true :=
  findLocalImages_only_local.1 (fun _ => true) ("![a](b.png)".data)
    ⟨'a' :: [], "b.png".data, "b.png".data, 0, 11⟩ (by decide)

/-! ## The rewrite engine: no-op and anchoring -/

theorem matchKeyAt_isSubstr {k s alt : List Char} {n : Nat}
    (h : matchKeyAt k s = some (alt, n)) :
    IsSubstr (']' :: '(' :: k ++ ')' :: []) s := by
  obtain ⟨⟨w, hw⟩, -, -⟩ := matchKeyAt_some h
  refine ⟨'!' :: '[' :: alt, w, ?_⟩
  rw [hw]
  simp

theorem replaceUrlsOneGo_id {k : List Char} {items : List TItem} :
    ∀ (fuel : Nat) (s : List Char), ¬ IsSubstr (']' :: '(' :: k ++ ')' :: []) s →
    replaceUrlsOneGo k items fuel s = s := by
  intro fuel
  induction fuel with
  | zero => intro s _; rfl
  | succ fuel ih =>
    intro s hno
    cases s with
    | nil => rfl
    | cons c t =>
      cases hm : matchKeyAt k (c :: t) with
      | some val =>
        obtain ⟨alt, n⟩ := val
        exact absurd (matchKeyAt_isSubstr hm) hno
      | none =>
        simp only [replaceUrlsOneGo, hm]
        rw [ih t (fun hc => hno (isSubstr_cons hc))]

theorem replaceUrls_singleton (content k v : List Char) :
    replaceUrls content [(k, v)] = replaceUrlsOne k v content := by
  simp only [replaceUrls, sortMappings, List.insertionSort, List.orderedInsert,
    replaceUrlsAll]
  cases h : replaceUrlsOne k v content with
  | none => rfl
  | some c2 => simp [replaceUrlsAll]

theorem parseTemplateGo_tail {url : List Char} (hbs : '\\' ∉ url) :
    ∀ fuel : Nat, url.length + 2 < fuel →
    parseTemplateGo 2 fuel (url ++ '\\' :: '2' :: []) =
      some (url.map TItem.lit ++ TItem.group 2 :: []) := by
  induction url with
  | nil =>
    intro fuel hf
    obtain ⟨f, rfl⟩ : ∃ f, fuel = f + 2 := ⟨fuel - 2, by omega⟩
    rfl
  | cons u url2 ih =>
    intro fuel hf
    obtain ⟨f, rfl⟩ : ∃ f, fuel = f + 1 := ⟨fuel - 1, by omega⟩
    simp only [List.mem_cons, not_or] at hbs
    have hu : ¬ u = '\\' := fun he => hbs.1 he.symm
    simp only [List.cons_append, parseTemplateGo, if_neg hu]
    simp only [List.append_eq]
    rw [ih hbs.2 f (by simp only [List.length_cons] at hf ⊢; omega)]
    rfl

theorem parseTemplate_safe {url : List Char} (hsafe : templateSafe url = true) :
    parseTemplate 2 ('\\' :: '1' :: (url ++ '\\' :: '2' :: [])) =
      some (TItem.group 1 :: (url.map TItem.lit ++ TItem.group 2 :: [])) := by
  simp only [templateSafe, Bool.and_eq_true, Bool.not_eq_true'] at hsafe
  have hbs : '\\' ∉ url := by
    intro hm
    rw [(List.elem_iff).mpr hm] at hsafe
    exact absurd hsafe.1 (by simp)
  cases url with
  | nil => rfl
  | cons u url2 =>
    have hud : u.isDigit = false := by
      have := hsafe.2
      simpa using this
    have htail := @parseTemplateGo_tail (u :: url2) hbs (url2.length + 5)
      (by simp only [List.length_cons]; omega)
    rw [List.cons_append] at htail
    unfold parseTemplate
    have hlen : ('\\' :: '1' :: ((u :: url2) ++ '\\' :: '2' :: [])).length + 1 =
        (url2.length + 5) + 1 := by
      simp
    rw [hlen]
    generalize hF : url2.length + 5 = F at htail ⊢
    simp only [List.cons_append, parseTemplateGo]
    simp only [if_true, reduceIte, hud, Bool.false_eq_true, if_false, ite_false]
    simp [hud, digitVal, htail]

theorem applyTemplate_lits (g0 g1 g2 : List Char) (url : List Char) (rest : List TItem) :
    applyTemplate g0 g1 g2 (url.map TItem.lit ++ rest) =
      url ++ applyTemplate g0 g1 g2 rest := by
  induction url with
  | nil => rfl
  | cons c cs ih => simp [applyTemplate, ih]

theorem applyTemplate_simple (g0 g1 g2 : List Char) (url : List Char) :
    applyTemplate g0 g1 g2 (TItem.group 1 :: (url.map TItem.lit ++ TItem.group 2 :: [])) =
      g1 ++ (url ++ g2) := by
  show g1 ++ applyTemplate g0 g1 g2 (url.map TItem.lit ++ TItem.group 2 :: []) = _
  rw [applyTemplate_lits]
  simp [applyTemplate]

theorem pyReplaceGo_id {old new : List Char} :
    ∀ (fuel : Nat) (s : List Char), ¬ IsSubstr old s →
    pyReplaceGo old new fuel s = s := by
  intro fuel
  induction fuel with
  | zero => intro s _; rfl
  | succ fuel ih =>
    intro s hno
    have hne : old ≠ [] := by
      rintro rfl
      exact hno ⟨[], s, rfl⟩
    cases s with
    | nil => simp [pyReplaceGo, hne]
    | cons c t =>
      have hnsw : startsWithB (c :: t) old = false := by
        rw [Bool.eq_false_iff]
        intro hsw
        obtain ⟨r, hr⟩ := startsWithB_iff.mp hsw
        exact hno ⟨[], r, by simpa using hr⟩
      simp only [pyReplaceGo, hne, hnsw]
      simp only [Bool.false_eq_true, if_false, ite_false]
      rw [ih t (fun hc => hno (isSubstr_cons hc))]

/-- C4 (amended): `replace_urls` returns a text value and is a no-op
for an entry whose original reference occurs in no image link,
provided the entry's target string keeps the replacement template
`\\1<target>\\2` literal (no backslash and no leading digit); a target
with an invalid template (e.g. `\\q`, or a leading digit forming an
out-of-range group reference) makes `re.sub` raise even when the key
is absent.  Diagram-block replacement never fails and is a no-op when
the block text is absent. -/
theorem replaceUrls_noop_when_absent :
    (∀ content k v : List Char, templateSafe v = true →
      isSubstrB (']' :: '(' :: k ++ ')' :: []) content = false →
      replaceUrls content [(k, v)] = some content) ∧
    (∀ (content : List Char) (b : PumlBlock) (p : List Char),
      isSubstrB b.full_match content = false →
      replacePlantumlWithImage content b p = content) := by
  constructor
  · intro content k v hsafe hfalse
    rw [replaceUrls_singleton]
    simp only [replaceUrlsOne, parseTemplate_safe hsafe]
    rw [replaceUrlsOneGo_id _ _ (fun hc => ?_)]
    rw [isSubstrB_iff.mpr hc] at hfalse
    exact absurd hfalse (by simp)
  · intro content b p hfalse
    refine pyReplaceGo_id _ _ (fun hc => ?_)
    rw [isSubstrB_iff.mpr hc] at hfalse
    exact absurd hfalse (by simp)

/-- C4 counterexample: a mapping value with an invalid replacement
template escape makes `re.sub` raise (modelled by `none`) even though
the key occurs nowhere in the document. -/
theorem replaceUrls_raises_on_bad_template :
    replaceUrls ("no image links here".data) [("k".data, '\\' :: 'q' :: [])] = none := by
  decide

/-- Witness for C4: a document whose only `k` occurrences are bare text
is returned unchanged for a template-safe value. -/
theorem replaceUrls_noop_when_absent_witness :
    replaceUrls ("no link k here".data) [("k".data, "V".data)] =
      some ("no link k here".data) :=
  replaceUrls_noop_when_absent.1 ("no link k here".data) ("k".data) ("V".data)
    (by decide) (by decide)

/-- One-entry rewrite relation: the output differs from the input only
by replacing whole image-link occurrences `![alt](k)` by `![alt](url)`
with the alt text kept; every other character, including bare
occurrences of `k` outside the link context, is copied unchanged. -/
inductive LinkRewrite (k url : List Char) : List Char → List Char → Prop where
  | nil : LinkRewrite k url [] []
  | copy (c : Char) {t t' : List Char} : LinkRewrite k url t t' →
      LinkRewrite k url (c :: t) (c :: t')
  | link {alt t t' : List Char} : ']' ∉ alt → LinkRewrite k url t t' →
      LinkRewrite k url ('!' :: '[' :: alt ++ ']' :: '(' :: k ++ ')' :: t)
        ('!' :: '[' :: alt ++ ']' :: '(' :: url ++ ')' :: t')

theorem linkRewrite_go {k url : List Char} :
    ∀ (fuel : Nat) (s : List Char), s.length < fuel →
    LinkRewrite k url s
      (replaceUrlsOneGo k (TItem.group 1 :: (url.map TItem.lit ++ TItem.group 2 :: []))
        fuel s) := by
  intro fuel
  induction fuel with
  | zero => intro s h; omega
  | succ fuel ih =>
    intro s hlen
    cases s with
    | nil => exact LinkRewrite.nil
    | cons c t =>
      cases hm : matchKeyAt k (c :: t) with
      | none =>
        simp only [replaceUrlsOneGo, hm]
        have htl : t.length < fuel := by
          simp only [List.length_cons] at hlen
          omega
        exact LinkRewrite.copy c (ih t htl)
      | some val =>
        obtain ⟨alt, n⟩ := val
        obtain ⟨⟨w, hw⟩, hn, halt⟩ := matchKeyAt_some hm
        simp only [replaceUrlsOneGo, hm]
        have hw' : c :: t = ('!' :: '[' :: alt ++ ']' :: '(' :: k ++ ')' :: []) ++ w := by
          rw [hw]; simp
        have hdrop : (c :: t).drop n = w := by
          rw [hw']
          have hlenL : ('!' :: '[' :: alt ++ ']' :: '(' :: k ++ ')' :: ([] : List Char)).length = n := by
            simp [hn]; omega
          rw [← hlenL, List.drop_left]
        rw [hdrop]
        have hwlen : w.length < fuel := by
          have := congrArg List.length hw'
          simp only [List.length_cons, List.length_append] at this hlen
          omega
        have hrec := ih w hwlen
        rw [hw]
        rw [applyTemplate_simple]
        have hshape :
            ('!' :: '[' :: alt ++ ']' :: '(' :: []) ++
                (url ++ ')' :: []) ++
                replaceUrlsOneGo k
                  (TItem.group 1 :: (url.map TItem.lit ++ TItem.group 2 :: [])) fuel w =
              '!' :: '[' :: alt ++ ']' :: '(' :: url ++ ')' ::
                replaceUrlsOneGo k
                  (TItem.group 1 :: (url.map TItem.lit ++ TItem.group 2 :: [])) fuel w := by
          simp
        rw [hshape]
        exact LinkRewrite.link halt hrec

/-- C2 (amended): for every target string that keeps the replacement
template `\\1<target>\\2` literal (no backslash, no leading digit),
`replace_urls` with a single entry `(k, url)` succeeds and relates
input to output by `LinkRewrite`: it rewrites `k` only inside the
structural context `![alt](k)`, preserves the alt text, and copies all
other text (in particular bare occurrences of `k`) byte-identically;
shown concretely on `k ![a](k) ![b]k ![c](kk)`.  For other targets
`re.sub` interprets the target as part of the replacement template
(backreferences substituted, invalid escapes raising). -/
theorem replaceUrls_rewrites_only_in_link_context :
    (∀ k url content : List Char, templateSafe url = true →
      ∃ r, replaceUrls content [(k, url)] = some r ∧ LinkRewrite k url content r) ∧
    replaceUrls ("k ![a](k) ![b]k ![c](kk)".data) [("k".data, "V".data)] =
      some ("k ![a](V) ![b]k ![c](kk)".data) := by
  constructor
  · intro k url content hsafe
    rw [replaceUrls_singleton]
    refine ⟨replaceUrlsOneGo k
      (TItem.group 1 :: (url.map TItem.lit ++ TItem.group 2 :: []))
      (content.length + 1) content, ?_, ?_⟩
    · simp only [replaceUrlsOne, parseTemplate_safe hsafe]
    · exact linkRewrite_go (content.length + 1) content (by omega)
  · decide

/-- C2 counterexample: a resolved-target string is not always inserted
verbatim, and can make the whole operation fail: with target `\\q` the
replacement template is invalid and `re.sub` raises (`none` — no text
at all is returned, so bare occurrences are not left byte-identical),
and with target `X\\1Y` the backreference `\\1` is substituted with
group text, so the rewritten link is `![a](X![a](Y)` rather than
`![a](X\\1Y)`. -/
theorem replaceUrls_processes_template_escapes :
    replaceUrls ("k ![a](k) x".data) [("k".data, '\\' :: 'q' :: [])] = none ∧
    replaceUrls ("k ![a](k) x".data) [("k".data, "X\\1Y".data)] =
      some ("k ![a](X![a](Y) x".data) := by
  exact ⟨by decide, by decide⟩

/-- Witness for C2 at a concrete single-link document with a
template-safe target. -/
theorem replaceUrls_rewrites_only_in_link_context_witness :
    ∃ r, replaceUrls ("![x](img.png)".data) [("img.png".data, "URL".data)] = some r ∧
      LinkRewrite ("img.png".data) ("URL".data) ("![x](img.png)".data) r :=
  replaceUrls_rewrites_only_in_link_context.1 ("img.png".data) ("URL".data)
    ("![x](img.png)".data) (by decide)

/-! ## Asset identity (C6) -/

theorem findPumlGo_hash {fuel pos : Nat} {s : List Char} {b : PumlBlock}
    (h : b ∈ findPumlGo fuel pos s) :
    b.hash = (md5hex (utf8Bytes b.content)).take 8 := by
  induction fuel generalizing pos s with
  | zero => simp [findPumlGo] at h
  | succ fuel ih =>
    cases s with
    | nil => simp [findPumlGo] at h
    | cons c t =>
      cases hm : matchPumlAt (c :: t) with
      | none =>
        simp only [findPumlGo, hm] at h
        exact ih h
      | some val =>
        obtain ⟨body, n⟩ := val
        simp only [findPumlGo, hm, List.mem_cons] at h
        rcases h with rfl | h
        · rfl
        · exact ih h

/-- C6: the content hash is the first 8 hexadecimal characters of the
MD5 digest of the UTF-8 encoding of the trimmed diagram source; it is a
pure function of the trimmed text, so sources with equal `strip()`
results hash identically, and every scanned block's `hash` field is the
first 8 hex characters of the MD5 of its (trimmed) `content`. -/
theorem hash8_first8_md5_of_trimmed :
    (∀ s : List Char, hash8 s = (md5hex (utf8Bytes (pyStrip s))).take 8) ∧
    (∀ s t : List Char, pyStrip s = pyStrip t → hash8 s = hash8 t) ∧
    (∀ (c : List Char) (b : PumlBlock), b ∈ findPlantumlBlocks c →
      b.hash = (md5hex (utf8Bytes b.content)).take 8) := by
  refine ⟨fun s => rfl, ?_, ?_⟩
  · intro s t h
    simp only [hash8, h]
  · intro c b hb
    exact findPumlGo_hash hb

/-- Witness for C6 at the claim's concrete whitespace-variation pair. -/
theorem hash8_first8_md5_of_trimmed_witness :
    hash8 ("  @startuml A\nfoo\n@enduml  ".data) =
      hash8 ("@startuml A\nfoo\n@enduml".data) :=
  hash8_first8_md5_of_trimmed.2.1 _ _ (by decide)

/-! ## Diagram-block replacement (C7) -/

/-- Join parts with a separator (used to state the occurrence-complete
characterization of `str.replace`). -/
def joinWith (sep : List Char) : List (List Char) → List Char
  | [] => []
  | q :: [] => q
  | q :: qs => q ++ sep ++ joinWith sep qs

theorem prefix_append_cases {p a b : List Char} (h : p <+: a ++ b) :
    p <+: a ∨ ∃ q, p = a ++ q ∧ q <+: b := by
  obtain ⟨r, hr⟩ := h
  have htake : (a ++ b).take p.length = p := by
    rw [← hr, List.take_left]
  by_cases hlen : p.length ≤ a.length
  · left
    have : p = a.take p.length := by
      calc p = (a ++ b).take p.length := htake.symm
        _ = a.take p.length ++ b.take (p.length - a.length) := List.take_append_eq_append_take
        _ = a.take p.length := by
          have hz : p.length - a.length = 0 := by omega
          rw [hz, List.take_zero, List.append_nil]
    rw [this]
    exact List.take_prefix _ _
  · right
    refine ⟨b.take (p.length - a.length), ?_, List.take_prefix _ _⟩
    calc p = (a ++ b).take p.length := htake.symm
      _ = a.take p.length ++ b.take (p.length - a.length) := List.take_append_eq_append_take
      _ = a ++ b.take (p.length - a.length) := by
        rw [List.take_of_length_le (by omega)]

/-- The occurrence-complete characterization of `pyReplaceGo`: the scan
decomposes the text into occurrence-free gaps separated by occurrences
of `old`, and the result joins the same gaps with `new`. -/
theorem pyReplaceGo_parts {old new : List Char} (hold : old ≠ []) :
    ∀ (fuel : Nat) (s : List Char), s.length < fuel →
    ∃ parts : List (List Char), parts ≠ [] ∧ (∀ q ∈ parts, ¬ IsSubstr old q) ∧
      s = joinWith old parts ∧ pyReplaceGo old new fuel s = joinWith new parts := by
  intro fuel
  induction fuel with
  | zero => intro s h; omega
  | succ fuel ih =>
    intro s hlen
    cases s with
    | nil =>
      refine ⟨[[]], by simp, ?_, rfl, ?_⟩
      · intro q hq
        rw [List.mem_singleton] at hq
        subst hq
        rw [isSubstr_nil]
        exact hold
      · simp [pyReplaceGo, hold, joinWith]
    | cons c t =>
      cases hsw : startsWithB (c :: t) old with
      | true =>
        obtain ⟨r, hr⟩ := startsWithB_iff.mp hsw
        have hdrop : (c :: t).drop old.length = r := by
          rw [hr, List.drop_left]
        have hrlen : r.length < fuel := by
          have := congrArg List.length hr
          simp only [List.length_cons, List.length_append] at this hlen
          have : old.length ≠ 0 := fun hz => hold (List.eq_nil_of_length_eq_zero hz)
          omega
        obtain ⟨parts, hne, hfree, hs, hgo⟩ := ih r hrlen
        obtain ⟨p, ps, rfl⟩ := List.exists_cons_of_ne_nil hne
        refine ⟨[] :: p :: ps, by simp, ?_, ?_, ?_⟩
        · intro q hq
          rcases List.mem_cons.mp hq with rfl | hq'
          · rw [isSubstr_nil]; exact hold
          · exact hfree q hq'
        · show c :: t = joinWith old ([] :: p :: ps)
          rw [hr, hs]
          simp [joinWith]
        · show pyReplaceGo old new (fuel + 1) (c :: t) = joinWith new ([] :: p :: ps)
          simp only [pyReplaceGo, hold, if_false, hsw, if_true]
          rw [hdrop, hgo]
          simp [joinWith]
      | false =>
        have htlen : t.length < fuel := by
          simp only [List.length_cons] at hlen
          omega
        obtain ⟨parts, hne, hfree, hs, hgo⟩ := ih t htlen
        obtain ⟨p, ps, rfl⟩ := List.exists_cons_of_ne_nil hne
        have hjoin : ∀ (sep : List Char), joinWith sep ((c :: p) :: ps) = c :: joinWith sep (p :: ps) := by
          intro sep
          cases ps with
          | nil => rfl
          | cons p' ps' => simp [joinWith]
        refine ⟨(c :: p) :: ps, by simp, ?_, ?_, ?_⟩
        · intro q hq
          rcases List.mem_cons.mp hq with rfl | hq'
          · intro hocc
            rcases isSubstr_cons_iff.mp hocc with ⟨r, hr⟩ | hp
            · have hp_pre : ∃ X, t = p ++ X := by
                cases ps with
                | nil =>
                  exact ⟨[], by simpa [joinWith] using hs⟩
                | cons p' ps' =>
                  refine ⟨old ++ joinWith old (p' :: ps'), ?_⟩
                  rw [hs]
                  simp [joinWith]
              obtain ⟨X, hX⟩ := hp_pre
              have : startsWithB (c :: t) old = true := by
                rw [startsWithB_iff]
                refine ⟨r ++ X, ?_⟩
                rw [hX]
                have : c :: (p ++ X) = (c :: p) ++ X := by simp
                rw [this, hr]
                simp
              rw [this] at hsw
              exact absurd hsw (by simp)
            · exact hfree p (List.mem_cons_self _ _) hp
          · exact hfree q (List.mem_cons_of_mem _ hq')
        · show c :: t = joinWith old ((c :: p) :: ps)
          rw [hjoin old, ← hs]
        · show pyReplaceGo old new (fuel + 1) (c :: t) = joinWith new ((c :: p) :: ps)
          simp only [pyReplaceGo, hold, if_false, hsw]
          simp only [Bool.false_eq_true, if_false, ite_false]
          rw [hgo, hjoin new]

theorem mem_left_of_append_eq_cons {M1 M2 Mt : List Char} {x : Char}
    (h : M1 ++ M2 = x :: Mt) (hne : M1 ≠ []) : x ∈ M1 := by
  cases M1 with
  | nil => exact absurd rfl hne
  | cons y ys =>
    simp only [List.cons_append, List.cons.injEq] at h
    rw [h.1]
    exact List.mem_cons_self _ _

theorem mem_right_of_append_eq_concat {M1 M2 Mi : List Char} {x : Char}
    (h : M1 ++ M2 = Mi ++ x :: []) (hne : M2 ≠ []) : x ∈ M2 := by
  have hrev := congrArg List.reverse h
  simp only [List.reverse_append, List.reverse_cons, List.reverse_nil, List.nil_append,
    List.cons_append] at hrev
  cases hM2 : M2.reverse with
  | nil =>
    have : M2 = [] := by simpa using congrArg List.reverse hM2
    exact absurd this hne
  | cons y ys =>
    rw [hM2] at hrev
    have hy : y = x := by
      have := congrArg List.head? hrev
      simpa using this
    have hmem : y ∈ M2.reverse := by
      rw [hM2]
      exact List.mem_cons_self _ _
    rw [List.mem_reverse] at hmem
    rwa [hy] at hmem

/-- No occurrence of the block text `M` can re-form in the joined
result when the embed line `e` contains no backtick and is not a
substring of `M`: `M` begins and ends with a backtick, so an occurrence
can neither start nor end inside a copy of `e`, it cannot contain a
whole copy (else `e ⊆ M`), and the gaps are occurrence-free. -/
theorem joinWith_no_occ {M e Mt Mi : List Char}
    (hM1 : M = '`' :: Mt) (hM2 : M = Mi ++ '`' :: [])
    (hE1 : '`' ∉ e) (hE2 : ¬ IsSubstr e M) :
    ∀ parts : List (List Char), (∀ q ∈ parts, ¬ IsSubstr M q) →
    ¬ IsSubstr M (joinWith e parts) := by
  intro parts
  induction parts with
  | nil =>
    intro _ hocc
    have : M = [] := isSubstr_nil.mp (by simpa [joinWith] using hocc)
    rw [hM1] at this
    exact absurd this (by simp)
  | cons q qs ih =>
    intro hfree
    cases qs with
    | nil =>
      intro hocc
      exact hfree q (List.mem_cons_self _ _) (by simpa [joinWith] using hocc)
    | cons q' qs' =>
      intro hocc
      have hj : joinWith e (q :: q' :: qs') = q ++ (e ++ joinWith e (q' :: qs')) := by
        simp [joinWith]
      rw [hj] at hocc
      rcases isSubstr_append_cases hocc with hq | hrest | ⟨M1, M2, hsplit, hne1, hne2, hsuf, hpre⟩
      · exact hfree q (List.mem_cons_self _ _) hq
      · rcases isSubstr_append_cases hrest with he | hJ |
          ⟨M1, M2, hsplit, hne1, hne2, hsuf, hpre⟩
        · refine hE1 (mem_of_isSubstr he ?_)
          rw [hM1]
          exact List.mem_cons_self _ _
        · exact ih (fun r hr => hfree r (List.mem_cons_of_mem _ hr)) hJ
        · have hx : '`' ∈ M1 :=
            mem_left_of_append_eq_cons (hsplit.symm.trans hM1) hne1
          exact hE1 (hsuf.subset hx)
      · rcases prefix_append_cases hpre with hpe | ⟨M3, hM3, hpJ⟩
        · have hx : '`' ∈ M2 :=
            mem_right_of_append_eq_concat (hsplit.symm.trans hM2) hne2
          exact hE1 (hpe.subset hx)
        · refine hE2 ⟨M1, M3, ?_⟩
          rw [hsplit, hM3, List.append_assoc]

theorem findPumlGo_shape {fuel pos : Nat} {s : List Char} {b : PumlBlock}
    (h : b ∈ findPumlGo fuel pos s) :
    IsSubstr b.full_match s ∧ ∃ mid, b.full_match = '`' :: mid ++ '`' :: [] := by
  induction fuel generalizing pos s with
  | zero => simp [findPumlGo] at h
  | succ fuel ih =>
    cases s with
    | nil => simp [findPumlGo] at h
    | cons c t =>
      cases hm : matchPumlAt (c :: t) with
      | none =>
        simp only [findPumlGo, hm] at h
        obtain ⟨h1, h2⟩ := ih h
        exact ⟨isSubstr_cons h1, h2⟩
      | some val =>
        obtain ⟨body, n⟩ := val
        simp only [findPumlGo, hm, List.mem_cons] at h
        obtain ⟨a, after, hdec, hn⟩ := matchPumlAt_some hm
        have hre : c :: t =
            ((('`' :: '`' :: '`' :: 'p' :: 'l' :: 'a' :: 'n' :: 't' :: 'u' :: 'm' :: 'l' :: []) ++
              a ++ '\n' :: body ++ ('`' :: '`' :: '`' :: [])) ++ after) := by
          simp [hdec]
        have hlenX :
            ((('`' :: '`' :: '`' :: 'p' :: 'l' :: 'a' :: 'n' :: 't' :: 'u' :: 'm' :: 'l' :: []) ++
              a ++ '\n' :: body ++ ('`' :: '`' :: '`' :: []))).length = n := by
          simp only [List.length_append, List.length_cons, List.length_nil]
          omega
        have hXfull : (c :: t).take n =
            ('`' :: '`' :: '`' :: 'p' :: 'l' :: 'a' :: 'n' :: 't' :: 'u' :: 'm' :: 'l' :: []) ++
              a ++ '\n' :: body ++ ('`' :: '`' :: '`' :: []) := by
          rw [hre, ← hlenX, List.take_left]
        rcases h with rfl | h
        · constructor
          · exact ⟨[], (c :: t).drop n, by simp [List.take_append_drop]⟩
          · refine ⟨('`' :: '`' :: 'p' :: 'l' :: 'a' :: 'n' :: 't' :: 'u' :: 'm' :: 'l' :: []) ++
              a ++ '\n' :: body ++ ('`' :: '`' :: []), ?_⟩
            show (c :: t).take n = _
            rw [hXfull]
            simp
        · obtain ⟨h1, h2⟩ := ih h
          refine ⟨?_, h2⟩
          have := @isSubstr_append_left _ _ ((c :: t).take n) h1
          rwa [List.take_append_drop] at this

/-- C7 (amended): given a block found in the text, replacement by the
embed line `![d](p)` replaces every occurrence of the exact full-match
substring `M` (occurrence-complete gap decomposition), and the result
contains the embed line; provided the embed line contains no backtick
and is not itself a substring of `M`, the result no longer contains
`M`. -/
theorem replacePlantuml_replaces_every_occurrence
    (content : List Char) (b : PumlBlock) (p : List Char)
    (hb : b ∈ findPlantumlBlocks content)
    (hg : '`' ∉ imageEmbed b.diagram_name p)
    (hsub : isSubstrB (imageEmbed b.diagram_name p) b.full_match = false) :
    IsSubstr (imageEmbed b.diagram_name p) (replacePlantumlWithImage content b p) ∧
    ¬ IsSubstr b.full_match (replacePlantumlWithImage content b p) ∧
    ∃ parts : List (List Char), parts ≠ [] ∧
      (∀ q ∈ parts, ¬ IsSubstr b.full_match q) ∧
      content = joinWith b.full_match parts ∧
      replacePlantumlWithImage content b p =
        joinWith (imageEmbed b.diagram_name p) parts := by
  obtain ⟨hocc, mid, hshape⟩ := findPumlGo_shape hb
  have hMne : b.full_match ≠ [] := by rw [hshape]; simp
  obtain ⟨parts, hne, hfree, hcontent, hgo⟩ :=
    @pyReplaceGo_parts b.full_match (imageEmbed b.diagram_name p) hMne
      (content.length + 1) content (by omega)
  have hres : replacePlantumlWithImage content b p =
      joinWith (imageEmbed b.diagram_name p) parts := hgo
  have hparts2 : ∃ q q' qs, parts = q :: q' :: qs := by
    obtain ⟨q, qs, rfl⟩ := List.exists_cons_of_ne_nil hne
    cases qs with
    | nil =>
      exfalso
      refine hfree q (List.mem_cons_self _ _) ?_
      have hq : content = q := by simpa [joinWith] using hcontent
      rwa [hq] at hocc
    | cons q' qs' => exact ⟨q, q', qs', rfl⟩
  refine ⟨?_, ?_, parts, hne, hfree, hcontent, hres⟩
  · obtain ⟨q, q', qs, rfl⟩ := hparts2
    rw [hres]
    refine ⟨q, joinWith (imageEmbed b.diagram_name p) (q' :: qs), ?_⟩
    simp [joinWith]
  · rw [hres]
    have hM2 : b.full_match = ('`' :: mid) ++ '`' :: [] := by
      rw [hshape]
    refine joinWith_no_occ hshape hM2 hg ?_ parts hfree
    intro hc
    rw [isSubstrB_iff.mpr hc] at hsub
    exact absurd hsub (by simp)

/-- The block text of the C7 counterexample. -/
def pumlCexBlockText : List Char := "```plantuml\n![diagram](x.png)\n```".data

/-- A document whose first found block's full match is
`pumlCexBlockText`, surrounded so that the replacement re-forms that
very substring. -/
def pumlCexContent : List Char :=
  pumlCexBlockText ++ "```plantuml\n".data ++ pumlCexBlockText ++ "\n```".data

/-- C7 counterexample: the first block found in `pumlCexContent` has
full match `M = pumlCexBlockText`, yet after
`replace_plantuml_with_image` with image path `x.png` the result still
contains `M` (the embed line re-forms an occurrence with the
surrounding text), contradicting "the result no longer contains M". -/
theorem replacePlantuml_result_can_still_contain_block :
    ((findPlantumlBlocks pumlCexContent).head?.map fun b =>
      (b.full_match == pumlCexBlockText) &&
        isSubstrB pumlCexBlockText
          (replacePlantumlWithImage pumlCexContent b ("x.png".data))) = some true := by
  rfl

/-- The document of the C7 witness. -/
def pumlWitContent : List Char :=
  "x```plantuml\n@startuml d\nA -> B\n@enduml\n```y".data

/-- The first (only) block of `pumlWitContent`. -/
def pumlWitBlock : PumlBlock := (findPlantumlBlocks pumlWitContent).headI

/-- Witness for C7: on the concrete document, replacement with image
path `d-img.png` yields text containing the embed line and no longer
containing the block's full match. -/
theorem replacePlantuml_replaces_every_occurrence_witness :
    IsSubstr (imageEmbed pumlWitBlock.diagram_name ("d-img.png".data))
      (replacePlantumlWithImage pumlWitContent pumlWitBlock ("d-img.png".data)) ∧
    ¬ IsSubstr pumlWitBlock.full_match
      (replacePlantumlWithImage pumlWitContent pumlWitBlock ("d-img.png".data)) := by
  have hb : pumlWitBlock ∈ findPlantumlBlocks pumlWitContent := by
    have hne : (findPlantumlBlocks pumlWitContent).isEmpty = false := rfl
    unfold pumlWitBlock
    cases h : findPlantumlBlocks pumlWitContent with
    | nil =>
      rw [h] at hne
      exact absurd hne (by simp)
    | cons x xs => simp [List.headI]
  have happ := replacePlantuml_replaces_every_occurrence pumlWitContent pumlWitBlock
    ("d-img.png".data) hb (by decide) (by decide)
  exact ⟨happ.1, happ.2.1⟩

end Omelet
